import Mathlib

/-!
Verification of the distributed brute-force k-nearest-neighbors engine
demonstrated by `cuml/nearest_neighbors_mnmg_demo.ipynb`.

The notebook itself only calls into the engine (`fit` / `kneighbors`) and then
compares the engine's output with a single-process baseline.  The engine's
components (Partition Store, Local Search Kernel, Query Broadcaster, Result
Merger, Coordinator) are therefore modelled here from the specification, while
the notebook's own comparison cells are embedded directly from the source.

Distances: the engine ranks neighbours by Euclidean distance.  We embed the
squared Euclidean distance over `ℚ`; squaring is strictly monotone on
non-negative reals, so every comparison (and hence every ordering / top-k /
tie-breaking statement) is preserved exactly.
-/

namespace KnnMnmg

open List

/-- A feature vector (one row of the dataset or one query point). -/
abbrev Point := List ℚ

/-- A scored candidate: (distance, global-row-id), ordered lexicographically:
ascending distance, ties broken by ascending global-row-id. -/
abbrev Key := ℚ ×ₗ ℕ

/-- Build a candidate key from a distance and a global row id. -/
def mkKey (d : ℚ) (n : ℕ) : Key := toLex (d, n)

/-- The distance component of a candidate. -/
def keyDist (x : Key) : ℚ := (ofLex x).1

/-- The global-row-id component of a candidate. -/
def keyId (x : Key) : ℕ := (ofLex x).2

/-- Squared Euclidean distance between two points. -/
def sqDist (p q : Point) : ℚ := (List.zipWith (fun a b => (a - b) * (a - b)) p q).sum

/-- One shard of the reference dataset: the rows it owns plus the global
row-id of its first row (local index `j` ↦ global id `offset + j`). -/
structure Partition where
  offset : ℕ
  rows : List Point

section Sorting

variable {α : Type*} [LinearOrder α]

/-- Sort a candidate list ascending (by the lexicographic candidate order). -/
def sortLe (l : List α) : List α := l.insertionSort (· ≤ ·)

/-- The `k` smallest elements of `l`, in ascending order. -/
def topk (k : ℕ) (l : List α) : List α := (sortLe l).take k

end Sorting

section SortLemmas

variable {α : Type*} [LinearOrder α]

/-- Number of elements of `l` that are `≤ x`. -/
def cntLe (x : α) (l : List α) : ℕ := l.countP (fun y => decide (y ≤ x))

theorem sortLe_sorted (l : List α) : List.Sorted (· ≤ ·) (sortLe l) :=
  List.sorted_insertionSort _ l

theorem sortLe_perm (l : List α) : sortLe l ~ l := List.perm_insertionSort _ l

theorem sortLe_congr {l l' : List α} (h : l ~ l') : sortLe l = sortLe l' :=
  List.eq_of_perm_of_sorted ((sortLe_perm l).trans (h.trans (sortLe_perm l').symm))
    (sortLe_sorted l) (sortLe_sorted l')

theorem topk_congr (k : ℕ) {l l' : List α} (h : l ~ l') : topk k l = topk k l' := by
  rw [topk, topk, sortLe_congr h]

theorem length_sortLe (l : List α) : (sortLe l).length = l.length :=
  (sortLe_perm l).length_eq

theorem length_topk (k : ℕ) (l : List α) : (topk k l).length = min k l.length := by
  rw [topk, List.length_take, length_sortLe]

theorem topk_sorted (k : ℕ) (l : List α) : List.Sorted (· ≤ ·) (topk k l) :=
  List.Pairwise.sublist (List.take_sublist k (sortLe l)) (sortLe_sorted l)

theorem topk_sublist_sortLe (k : ℕ) (l : List α) : topk k l <+ sortLe l :=
  List.take_sublist k (sortLe l)

theorem mem_of_mem_topk {k : ℕ} {l : List α} {x : α} (h : x ∈ topk k l) : x ∈ l :=
  (sortLe_perm l).mem_iff.mp ((topk_sublist_sortLe k l).mem h)

theorem cntLe_le_length (x : α) (l : List α) : cntLe x l ≤ l.length :=
  List.countP_le_length _

theorem cntLe_congr (x : α) {l l' : List α} (h : l ~ l') : cntLe x l = cntLe x l' :=
  h.countP_eq _

/-- In a `≤`-sorted list whose first `k` positions are dominated by the
count of elements `≤ x`, every position below `k` holds an element `≤ x`. -/
theorem sorted_get_le_of_cntLe {x : α} :
    ∀ {s : List α} {k i : ℕ}, List.Sorted (· ≤ ·) s → k ≤ cntLe x s → i < k →
      ∀ his : i < s.length, s.get ⟨i, his⟩ ≤ x := by
  intro s
  induction s with
  | nil => intro k i _ _ _ his; exact absurd his (by simp)
  | cons y s ih =>
    intro k i hs hk hik his
    have hcnt : cntLe x (y :: s) ≤ cntLe x s + 1 := by
      rw [cntLe, cntLe, List.countP_cons]
      split <;> omega
    have hy : y ≤ x := by
      have hpos : 0 < cntLe x (y :: s) :=
        lt_of_lt_of_le (Nat.lt_of_le_of_lt (Nat.zero_le i) hik) hk
      obtain ⟨z, hz, hzx⟩ := List.countP_pos_iff.mp hpos
      have hzx' : z ≤ x := of_decide_eq_true hzx
      rcases List.mem_cons.mp hz with rfl | hz'
      · exact hzx'
      · exact le_trans ((List.sorted_cons.mp hs).1 z hz') hzx'
    cases i with
    | zero => exact hy
    | succ j =>
      have hj : j < k - 1 := by omega
      have hk' : k - 1 ≤ cntLe x s := by omega
      exact ih (List.sorted_cons.mp hs).2 hk' hj (by simpa using his)

end SortLemmas

theorem take_eq_replicate_of_get {β : Type*} {y : β} {s : List β} {k : ℕ} (hk : k ≤ s.length)
    (h : ∀ i (his : i < s.length), i < k → s[i] = y) :
    s.take k = List.replicate k y := by
  apply List.ext_getElem
  · rw [List.length_take, List.length_replicate]; omega
  · intro i h1 h2
    rw [List.getElem_take, List.getElem_replicate]
    have hik : i < k := by rw [List.length_take] at h1; omega
    exact h i (by omega) hik

section PruneLemmas

variable {α : Type*} [LinearOrder α]

/-- Inserting an element into a sorted list does not change the first `k`
entries when at least `k` existing entries are `≤` the inserted one. -/
theorem orderedInsert_take {x : α} :
    ∀ (s : List α) (k : ℕ), List.Sorted (· ≤ ·) s → k ≤ cntLe x s →
      (s.orderedInsert (· ≤ ·) x).take k = s.take k := by
  intro s
  induction s with
  | nil =>
    intro k _ hk
    have h0 : cntLe x ([] : List α) = 0 := by rw [cntLe]; rfl
    have : k = 0 := by omega
    subst this; simp
  | cons y s ih =>
    intro k hs hk
    match k with
    | 0 => simp
    | k + 1 =>
      by_cases hxy : x ≤ y
      · have hpos : 0 < cntLe x (y :: s) := by omega
        have hyx : y ≤ x := by
          obtain ⟨z, hz, hzx⟩ := List.countP_pos_iff.mp hpos
          have hzx' : z ≤ x := of_decide_eq_true hzx
          rcases List.mem_cons.mp hz with rfl | hz'
          · exact hzx'
          · exact le_trans ((List.sorted_cons.mp hs).1 z hz') hzx'
        have hxy' : x = y := le_antisymm hxy hyx
        subst hxy'
        have hk' : k ≤ cntLe x s := by
          have : cntLe x (x :: s) = cntLe x s + 1 := by
            rw [cntLe, cntLe, List.countP_cons_of_pos]
            exact decide_eq_true (le_refl x)
          omega
        have hsy : ∀ i (his : i < s.length), i < k → s[i] = x := by
          intro i his hik
          have h1 : s[i] ≤ x :=
            sorted_get_le_of_cntLe (List.sorted_cons.mp hs).2 hk' hik his
          have h2 : x ≤ s[i] := (List.sorted_cons.mp hs).1 _ (List.getElem_mem his)
          exact le_antisymm h1 h2
        have hklen : k ≤ s.length := le_trans hk' (cntLe_le_length x s)
        have e1 : s.take k = List.replicate k x := take_eq_replicate_of_get hklen hsy
        have e2 : (x :: s).take k = List.replicate k x := by
          apply take_eq_replicate_of_get (by simp; omega)
          intro i his hik
          match i with
          | 0 => rfl
          | i + 1 => simpa using hsy i (by simpa using his) (by omega)
        simp only [List.orderedInsert]
        rw [if_pos hxy, List.take_succ_cons, List.take_succ_cons, e1, e2]
      · have hy : y ≤ x := le_of_not_le hxy
        have hcnt : cntLe x (y :: s) = cntLe x s + 1 := by
          rw [cntLe, cntLe, List.countP_cons_of_pos]
          exact decide_eq_true hy
        simp only [List.orderedInsert, if_neg hxy]
        rw [List.take_succ_cons, List.take_succ_cons,
          ih k (List.sorted_cons.mp hs).2 (by omega)]

/-- Appending one "large" element (dominated by at least `k` existing ones)
does not change the top-k. -/
theorem topk_append_one {x : α} {l : List α} {k : ℕ} (h : k ≤ cntLe x l) :
    topk k (l ++ [x]) = topk k l := by
  have hperm : l ++ [x] ~ x :: l := perm_append_comm
  rw [topk_congr k hperm]
  have hins : sortLe (x :: l) = (sortLe l).orderedInsert (· ≤ ·) x := rfl
  rw [topk, hins, topk]
  exact orderedInsert_take (sortLe l) k (sortLe_sorted l)
    (by rw [cntLe_congr x (sortLe_perm l)]; exact h)

/-- Appending any number of "large" elements does not change the top-k. -/
theorem topk_append_big :
    ∀ (m l : List α) (k : ℕ), (∀ x ∈ m, k ≤ cntLe x l) → topk k (l ++ m) = topk k l := by
  intro m
  induction m with
  | nil => intro l k _; rw [List.append_nil]
  | cons x m ih =>
    intro l k h
    have e1 : l ++ x :: m = (l ++ [x]) ++ m := by
      rw [List.append_assoc, List.singleton_append]
    rw [e1, ih (l ++ [x]) k (fun z hz => by
      have : cntLe z l ≤ cntLe z (l ++ [x]) := by
        rw [cntLe, cntLe, List.countP_append]; omega
      exact le_trans (h z (List.mem_cons_of_mem x hz)) this)]
    exact topk_append_one (h x (List.mem_cons_self x m))

theorem perm_rotate {β : Type*} (u v w : List β) : (u ++ v) ++ w ~ v ++ (u ++ w) := by
  calc (u ++ v) ++ w = u ++ (v ++ w) := by rw [List.append_assoc]
    _ ~ (v ++ w) ++ u := perm_append_comm
    _ = v ++ (w ++ u) := by rw [List.append_assoc]
    _ ~ v ++ (u ++ w) := (perm_append_comm).append_left v

/-- Pruning a candidate source to its local top-k does not change the global
top-k of its union with anything else. -/
theorem topk_prune (a b : List α) (k : ℕ) :
    topk k (topk k a ++ b) = topk k (a ++ b) := by
  have hsplit : (sortLe a).take k ++ (sortLe a).drop k = sortLe a :=
    List.take_append_drop k (sortLe a)
  have hperm : a ++ b ~ (topk k a ++ b) ++ (sortLe a).drop k := by
    calc a ++ b ~ sortLe a ++ b := ((sortLe_perm a).symm.append_right b)
      _ = ((sortLe a).take k ++ (sortLe a).drop k) ++ b := by rw [hsplit]
      _ ~ ((sortLe a).take k ++ b) ++ (sortLe a).drop k := by
          calc ((sortLe a).take k ++ (sortLe a).drop k) ++ b
              = (sortLe a).take k ++ ((sortLe a).drop k ++ b) := by rw [List.append_assoc]
            _ ~ (sortLe a).take k ++ (b ++ (sortLe a).drop k) :=
                (perm_append_comm).append_left _
            _ = ((sortLe a).take k ++ b) ++ (sortLe a).drop k := by rw [List.append_assoc]
      _ = (topk k a ++ b) ++ (sortLe a).drop k := rfl
  rw [topk_congr k hperm]
  refine (topk_append_big ((sortLe a).drop k) (topk k a ++ b) k ?_).symm
  intro x hx
  by_cases hlen : (sortLe a).length ≤ k
  · rw [List.drop_eq_nil_of_le hlen] at hx
    exact absurd hx (List.not_mem_nil x)
  · push_neg at hlen
    have hdom : ∀ y ∈ (sortLe a).take k, y ≤ x := by
      have hpw : List.Pairwise (· ≤ ·) ((sortLe a).take k ++ (sortLe a).drop k) := by
        rw [hsplit]; exact sortLe_sorted a
      exact fun y hy => (List.pairwise_append.mp hpw).2.2 y hy x hx
    have hcnt : cntLe x (topk k a) = k := by
      rw [cntLe, topk, List.countP_eq_length.mpr (fun y hy => decide_eq_true (hdom y hy))]
      rw [List.length_take, length_sortLe]
      rw [length_sortLe] at hlen
      omega
    have : cntLe x (topk k a) ≤ cntLe x (topk k a ++ b) := by
      rw [cntLe, cntLe, List.countP_append]; omega
    omega

/-- Replacing every candidate source by its local top-k does not change the
global top-k of the flattened union. -/
theorem topk_flatten_map (k : ℕ) (ls : List (List α)) :
    topk k ((ls.map (topk k)).flatten) = topk k ls.flatten := by
  suffices h : ∀ (ls : List (List α)) (acc : List α),
      topk k (acc ++ (ls.map (topk k)).flatten) = topk k (acc ++ ls.flatten) by
    have := h ls []
    simpa using this
  intro ls
  induction ls with
  | nil => intro acc; rfl
  | cons l ls ih =>
    intro acc
    rw [List.map_cons, List.flatten_cons, List.flatten_cons,
      ← List.append_assoc, ← List.append_assoc, ih (acc ++ topk k l)]
    rw [topk_congr k (perm_rotate acc (topk k l) ls.flatten),
      topk_congr k (perm_rotate acc l ls.flatten), topk_prune]

end PruneLemmas

/-- All (distance, global-row-id) candidates of one partition for query `q`. -/
def localPairs (q : Point) (pt : Partition) : List Key :=
  (pt.rows.enumFrom pt.offset).map (fun nr => mkKey (sqDist q nr.2) nr.1)

/-- Modelled from the spec: the Local Search Kernel
`search(local_data, queries, k)` — per query, the partition's Candidate List:
its local top-k (all available rows when fewer than k), sorted ascending by
distance with ties broken by ascending global-row-id. -/
def search (q : Point) (k : ℕ) (pt : Partition) : List Key :=
  topk k (localPairs q pt)

/-- Modelled from the spec: the fewer-than-k flag on a partition's Candidate
List, set when the partition holds fewer than `k` rows. -/
def fewerThanK (k : ℕ) (pt : Partition) : Bool := decide (pt.rows.length < k)

/-- Modelled from the spec: the Result Merger `merge(candidate_lists_by_query, k)`
for one query point — a k-way selection keeping the `k` best candidates over
all partitions' Candidate Lists, output ascending by distance, ties by
ascending global-row-id. -/
def merge (cls : List (List Key)) (k : ℕ) : List Key := topk k cls.flatten

/-- Modelled from the spec: the merged Result Row for one query point. -/
def resultRow (parts : List Partition) (q : Point) (k : ℕ) : List Key :=
  merge (parts.map (fun pt => search q k pt)) k

/-- Modelled from the spec: the Query interface
`kneighbors(fitted_handle, query_set, k)` — one Result Row per query point. -/
def kneighbors (parts : List Partition) (queries : List Point) (k : ℕ) : List (List Key) :=
  queries.map (fun q => resultRow parts q k)

/-- Modelled from the spec: contiguous block sizes used by `fit` to split `N`
rows into `P` partitions (block `i` spans global ids `[N*i/P, N*(i+1)/P)`). -/
def chunkSizes (N P : ℕ) : List ℕ :=
  (List.range P).map (fun i => N * (i + 1) / P - N * i / P)

/-- Cut a row list into partitions of the given sizes, threading the global
row-id offset. -/
def buildParts : ℕ → List Point → List ℕ → List Partition
  | _, _, [] => []
  | off, rows, s :: ss => ⟨off, rows.take s⟩ :: buildParts (off + s) (rows.drop s) ss

/-- Modelled from the spec: the Partition Store `fit(dataset, partition_count)` —
deterministic contiguous block assignment keyed by input order, preserving
offset continuity. -/
def fit (ds : List Point) (P : ℕ) : List Partition :=
  buildParts 0 ds (chunkSizes ds.length P)

/-- All (distance, global-row-id) candidates of the whole dataset for `q`
(the un-partitioned reference against which exactness is stated). -/
def globalKeys (q : Point) (ds : List Point) : List Key :=
  ds.enum.map (fun nr => mkKey (sqDist q nr.2) nr.1)

/-- Does partition `pt` own global row id `n`? -/
def ownsRow (pt : Partition) (n : ℕ) : Bool :=
  decide (pt.offset ≤ n) && decide (n < pt.offset + pt.rows.length)

/-! ### Refinement: merged per-partition candidates equal the global top-k -/

theorem merge_search_eq_topk (parts : List Partition) (q : Point) (k : ℕ) :
    resultRow parts q k = topk k ((parts.map (localPairs q)).flatten) := by
  rw [resultRow, merge]
  have hmap : parts.map (fun pt => search q k pt) = (parts.map (localPairs q)).map (topk k) := by
    rw [List.map_map]; rfl
  rw [hmap, topk_flatten_map]

theorem enumFrom_append' {β : Type*} (l₁ l₂ : List β) (n : ℕ) :
    (l₁ ++ l₂).enumFrom n = l₁.enumFrom n ++ l₂.enumFrom (n + l₁.length) := by
  induction l₁ generalizing n with
  | nil => simp
  | cons a l ih =>
    rw [List.cons_append, List.enumFrom_cons, ih (n + 1), List.enumFrom_cons,
      List.cons_append, List.length_cons]
    have : n + 1 + l.length = n + (l.length + 1) := by omega
    rw [this]

theorem buildParts_length (off : ℕ) (rows : List Point) (ss : List ℕ) :
    (buildParts off rows ss).length = ss.length := by
  induction ss generalizing off rows with
  | nil => rfl
  | cons s ss ih => rw [buildParts, List.length_cons, ih, List.length_cons]

theorem buildParts_localPairs (q : Point) :
    ∀ (ss : List ℕ) (off : ℕ) (rows : List Point), ss.sum ≤ rows.length →
      ((buildParts off rows ss).map (localPairs q)).flatten
        = ((rows.take ss.sum).enumFrom off).map (fun nr => mkKey (sqDist q nr.2) nr.1) := by
  intro ss
  induction ss with
  | nil => intro off rows _; simp [buildParts]
  | cons s ss ih =>
    intro off rows h
    rw [List.sum_cons] at h
    have hs : s ≤ rows.length := by omega
    rw [buildParts, List.map_cons, List.flatten_cons,
      ih (off + s) (rows.drop s) (by rw [List.length_drop]; omega)]
    rw [List.sum_cons, List.take_add, enumFrom_append', List.map_append,
      List.length_take, Nat.min_eq_left hs]
    rfl

theorem buildParts_rows_flatten :
    ∀ (ss : List ℕ) (off : ℕ) (rows : List Point), ss.sum ≤ rows.length →
      ((buildParts off rows ss).map Partition.rows).flatten = rows.take ss.sum := by
  intro ss
  induction ss with
  | nil => intro off rows _; simp [buildParts]
  | cons s ss ih =>
    intro off rows h
    rw [List.sum_cons] at h
    rw [buildParts, List.map_cons, List.flatten_cons,
      ih (off + s) (rows.drop s) (by rw [List.length_drop]; omega),
      List.sum_cons, List.take_add]

theorem sum_map_sub_telescope (f : ℕ → ℕ) (hf : Monotone f) :
    ∀ P : ℕ, ((List.range P).map (fun i => f (i + 1) - f i)).sum = f P - f 0 := by
  intro P
  induction P with
  | zero => simp
  | succ P ih =>
    rw [List.range_succ, List.map_append, List.sum_append, ih]
    have h1 : f 0 ≤ f P := hf (Nat.zero_le P)
    have h2 : f P ≤ f (P + 1) := hf (Nat.le_succ P)
    simp only [List.map_cons, List.map_nil, List.sum_cons, List.sum_nil]
    omega

theorem chunkSizes_sum (N P : ℕ) (hP : 1 ≤ P) : (chunkSizes N P).sum = N := by
  rw [chunkSizes, sum_map_sub_telescope (fun i => N * i / P)
    (fun i j hij => Nat.div_le_div_right (Nat.mul_le_mul_left N hij))]
  rw [Nat.mul_div_left N hP]
  simp

theorem chunkSizes_length (N P : ℕ) : (chunkSizes N P).length = P := by
  rw [chunkSizes, List.length_map, List.length_range]

/-- The engine's Result Row for a query over a fitted handle is exactly the
global top-k over the whole dataset. -/
theorem resultRow_fit (ds : List Point) (P k : ℕ) (hP : 1 ≤ P) (q : Point) :
    resultRow (fit ds P) q k = topk k (globalKeys q ds) := by
  rw [merge_search_eq_topk, fit,
    buildParts_localPairs q (chunkSizes ds.length P) 0 ds
      (by rw [chunkSizes_sum ds.length P hP]),
    chunkSizes_sum ds.length P hP, List.take_length]
  rfl

/-! ### Facts about the global candidate list -/

theorem globalKeys_length (q : Point) (ds : List Point) :
    (globalKeys q ds).length = ds.length := by
  rw [globalKeys, List.length_map, List.enum_length]

theorem globalKeys_getElem (q : Point) (ds : List Point) (n : ℕ)
    (h : n < (globalKeys q ds).length) :
    (globalKeys q ds)[n] = mkKey (sqDist q (ds.get ⟨n, by rwa [globalKeys_length] at h⟩)) n := by
  simp only [globalKeys] at h ⊢
  rw [List.getElem_map]
  have h' : n < ds.enum.length := by rwa [List.length_map] at h
  have : ds.enum[n] = (n, ds.get ⟨n, by rwa [List.enum_length] at h'⟩) := by
    simp [List.enum_eq_enumFrom, List.getElem_enumFrom]
  rw [this]

theorem globalKeys_mem (q : Point) (ds : List Point) (n : ℕ) (hn : n < ds.length) :
    mkKey (sqDist q (ds.get ⟨n, hn⟩)) n ∈ globalKeys q ds := by
  have h : n < (globalKeys q ds).length := by rwa [globalKeys_length]
  have := globalKeys_getElem q ds n h
  rw [← this]
  exact List.getElem_mem h

theorem globalKeys_nodup (q : Point) (ds : List Point) : (globalKeys q ds).Nodup := by
  have h : (globalKeys q ds).map keyId = ds.enum.map Prod.fst := by
    rw [globalKeys, List.map_map]; rfl
  have hfst := List.nodup_enum_map_fst ds
  rw [← h] at hfst
  exact hfst.of_map

/-! ### Partition coverage counting -/

theorem buildParts_countP_zero :
    ∀ (ss : List ℕ) (off : ℕ) (rows : List Point) (n : ℕ),
      n < off ∨ off + ss.sum ≤ n →
      (buildParts off rows ss).countP (fun pt => ownsRow pt n) = 0 := by
  intro ss
  induction ss with
  | nil => intro off rows n _; rfl
  | cons s ss ih =>
    intro off rows n hn
    rw [List.sum_cons] at hn
    rw [buildParts, List.countP_cons]
    have hhead : ownsRow ⟨off, rows.take s⟩ n = false := by
      rw [ownsRow]
      have hlen : (rows.take s).length ≤ s := by
        rw [List.length_take]; omega
      simp only [Bool.and_eq_false_iff, decide_eq_false_iff_not]
      omega
    rw [hhead, if_neg (by simp), ih (off + s) (rows.drop s) n (by omega)]

theorem buildParts_countP_one :
    ∀ (ss : List ℕ) (off : ℕ) (rows : List Point) (n : ℕ),
      ss.sum ≤ rows.length → off ≤ n → n < off + ss.sum →
      (buildParts off rows ss).countP (fun pt => ownsRow pt n) = 1 := by
  intro ss
  induction ss with
  | nil => intro off rows n _ h1 h2; rw [List.sum_nil] at h2; omega
  | cons s ss ih =>
    intro off rows n hsum h1 h2
    rw [List.sum_cons] at hsum h2
    have hs : s ≤ rows.length := by omega
    have hlen : (rows.take s).length = s := by
      rw [List.length_take]; omega
    rw [buildParts, List.countP_cons]
    by_cases hcase : n < off + s
    · have hhead : ownsRow ⟨off, rows.take s⟩ n = true := by
        rw [ownsRow]
        simp only [Bool.and_eq_true, decide_eq_true_eq]
        rw [hlen]
        omega
      rw [hhead, if_pos rfl,
        buildParts_countP_zero ss (off + s) (rows.drop s) n (Or.inl hcase)]
    · have hhead : ownsRow ⟨off, rows.take s⟩ n = false := by
        rw [ownsRow]
        simp only [Bool.and_eq_false_iff, decide_eq_false_iff_not]
        rw [hlen]
        omega
      rw [hhead, if_neg (by simp),
        ih (off + s) (rows.drop s) n (by rw [List.length_drop]; omega) (by omega) (by omega)]

/-! ### Error taxonomy, broadcast failure, and the coordinator state machine -/

/-- Modelled from the spec: the error taxonomy of §7. -/
inductive KnnError
  | invalidInput
  | dimensionMismatch
  | broadcastError
  | incompleteResult
  | notFitted
deriving DecidableEq

/-- Modelled from the spec: a `kneighbors` call through the Query Broadcaster.
`reach i` says whether the holder of partition `i` is reachable; if any
partition-holder is unreachable the whole call fails with `BroadcastError`
and returns no results, otherwise all Result Rows are returned. -/
def kneighborsChecked (reach : ℕ → Bool) (parts : List Partition)
    (queries : List Point) (k : ℕ) : Except KnnError (List (List Key)) :=
  if (List.range parts.length).all reach then .ok (kneighbors parts queries k)
  else .error .broadcastError

/-- Modelled from the spec: Coordinator lifecycle states. -/
inductive Phase
  | unfit
  | fitted
  | querying
  | idle
deriving DecidableEq

/-- Modelled from the spec: the Coordinator's state — its lifecycle phase and
the Partition Store (`none` while unfit). -/
structure Coord where
  phase : Phase
  store : Option (List Partition)

/-- Modelled from the spec: validity of `fit` input — non-empty dataset,
consistent dimension across rows, at least one partition. -/
def validFitInput (ds : List Point) (P : ℕ) : Bool :=
  decide (ds ≠ []) && decide (1 ≤ P) &&
    ds.all (fun r => decide (r.length = (ds.headD []).length))

/-- Modelled from the spec: the Coordinator's `fit` — on success installs the
new Partition Store, on `InvalidInput` leaves the whole state untouched. -/
def coordFit (c : Coord) (ds : List Point) (P : ℕ) : Coord × Except KnnError Unit :=
  if validFitInput ds P then (⟨Phase.fitted, some (fit ds P)⟩, .ok ())
  else (c, .error .invalidInput)

/-- Modelled from the spec: the Coordinator's `kneighbors` — fails with
`NotFitted` on an unfit coordinator; otherwise runs the broadcast/search/merge
pipeline and returns to `Idle`, never mutating the Partition Store, whether
the call succeeds or fails. -/
def coordKneighbors (c : Coord) (reach : ℕ → Bool) (queries : List Point) (k : ℕ) :
    Coord × Except KnnError (List (List Key)) :=
  match c.store with
  | none => (c, .error .notFitted)
  | some parts =>
    match kneighborsChecked reach parts queries k with
    | .ok rs => ({ c with phase := Phase.idle }, .ok rs)
    | .error e => ({ c with phase := Phase.idle }, .error e)

/-! ### The notebook's comparison cells -/

/-- Parameter `n_samples` from the notebook's parameter cell. -/
def n_samples : ℕ := 100000

/-- Parameter `n_features` from the notebook's parameter cell. -/
def n_features : ℕ := 50

/-- Parameter `n_neighbors` from the notebook's parameter cell. -/
def n_neighbors : ℕ := 5

/-- Parameter `n_query` from the notebook's parameter cell. -/
def n_query : ℕ := 5000

/-- The cell's `np.sort(I, axis=1)`: sort each row of an index matrix ascending. -/
def sortRows (m : List (List ℤ)) : List (List ℤ) :=
  m.map (fun r => r.insertionSort (· ≤ ·))

/-- The cell's `len(diff[diff != 0])` for `diff = a - b` (elementwise over the whole
matrix): the number of positions at which the two matrices differ. -/
def diffCount (a b : List (List ℤ)) : ℕ :=
  (List.zipWith
    (fun ra rb => (List.zipWith (fun x y => x - y) ra rb).countP (fun d => decide (d ≠ 0)))
    a b).sum

/-- The index-comparison cell's pass condition:
`(len(diff[diff != 0]) / n_query) < 1e-2` computed on the row-wise sorted
matrices. -/
def indexCheckPassed (Isk Icuml : List (List ℤ)) : Bool :=
  decide ((diffCount (sortRows Isk) (sortRows Icuml) : ℚ) / (n_query : ℚ) < 1 / 100)

/-- The sklearn call `knn_sk.kneighbors(X_df_query, n_neighbors)` passes the
neighbor count explicitly. -/
def skKneighborsArg : Option ℕ := some n_neighbors

/-- The cuML call `knn_cuml.kneighbors(X_cudf_query)` passes no neighbor
count. -/
def cumlKneighborsArg : Option ℕ := none

/-- Modelled from the spec: a `kneighbors` call uses the explicitly passed
neighbor count, falling back to the model's configured default
(`n_neighbors: k` in the configuration options) when none is passed. -/
def effectiveNeighbors (arg : Option ℕ) (defaultK : ℕ) : ℕ := arg.getD defaultK

/-- Shape `(rows, cols)` of the distance/index matrices returned by a
`kneighbors` call answering `nq` query points with `k` neighbors each. -/
def resultShape (nq k : ℕ) : ℕ × ℕ := (nq, k)

/-! ### Claim theorems -/

/-- C3: Partitioning invariant — for every partition count `P ≥ 1` and every
dataset, `fit` produces exactly `P` partitions whose rows are the dataset's
rows in order; every global row id `n < N` lies in exactly one partition's
global-row-id range, and no partition's range reaches outside `[0, N)`. -/
theorem fit_partitions_cover (ds : List Point) (P : ℕ) (hP : 1 ≤ P) :
    (fit ds P).length = P ∧
    ((fit ds P).map Partition.rows).flatten = ds ∧
    (∀ n, n < ds.length → (fit ds P).countP (fun pt => ownsRow pt n) = 1) ∧
    (∀ n, ds.length ≤ n → (fit ds P).countP (fun pt => ownsRow pt n) = 0) := by
  have hsum : (chunkSizes ds.length P).sum = ds.length := chunkSizes_sum _ _ hP
  refine ⟨?_, ?_, ?_, ?_⟩
  · rw [fit, buildParts_length, chunkSizes_length]
  · rw [fit, buildParts_rows_flatten _ _ _ (by rw [hsum]), hsum, List.take_length]
  · intro n hn
    exact buildParts_countP_one _ 0 ds n (by rw [hsum]) (Nat.zero_le n) (by omega)
  · intro n hn
    exact buildParts_countP_zero _ 0 ds n (Or.inr (by omega))

/-- C3 witness. -/
theorem fit_partitions_cover_witness :
    1 ≤ 2 ∧
    ((fit [[0,0],[1,0],[0,1],[5,5]] 2).length = 2 ∧
     ((fit [[0,0],[1,0],[0,1],[5,5]] 2).map Partition.rows).flatten
        = [[0,0],[1,0],[0,1],[5,5]] ∧
     (∀ n, n < ([[0,0],[1,0],[0,1],[5,5]] : List Point).length →
        (fit [[0,0],[1,0],[0,1],[5,5]] 2).countP (fun pt => ownsRow pt n) = 1) ∧
     (∀ n, ([[0,0],[1,0],[0,1],[5,5]] : List Point).length ≤ n →
        (fit [[0,0],[1,0],[0,1],[5,5]] 2).countP (fun pt => ownsRow pt n) = 0)) :=
  ⟨by decide, fit_partitions_cover [[0,0],[1,0],[0,1],[5,5]] 2 (by decide)⟩

/-- C4: Determinism / idempotence of querying — on a coordinator holding a
fitted handle, repeating the same `kneighbors` call (the first call left the
Partition Store unchanged) returns an identical answer: identical distances
and global-row-ids in identical order, with identical error otherwise. -/
theorem kneighbors_repeat_deterministic (c : Coord) (parts : List Partition)
    (hc : c.store = some parts) (reach : ℕ → Bool) (queries : List Point) (k : ℕ) :
    (coordKneighbors ((coordKneighbors c reach queries k).1) reach queries k).2
      = (coordKneighbors c reach queries k).2 := by
  have hstore : (coordKneighbors c reach queries k).1.store = c.store := by
    cases hr : kneighborsChecked reach parts queries k with
    | ok rs => simp [coordKneighbors, hc, hr]
    | error e => simp [coordKneighbors, hc, hr]
  have hres : ∀ c₁ c₂ : Coord, c₁.store = c₂.store →
      (coordKneighbors c₁ reach queries k).2 = (coordKneighbors c₂ reach queries k).2 := by
    intro c₁ c₂ h12
    cases hs : c₂.store with
    | none => simp [coordKneighbors, hs, h12.trans hs]
    | some ps =>
      cases hr : kneighborsChecked reach ps queries k with
      | ok rs => simp [coordKneighbors, hs, h12.trans hs, hr]
      | error e => simp [coordKneighbors, hs, h12.trans hs, hr]
  exact hres _ _ (hstore.trans hc ▸ hstore)

/-- C4 witness. -/
theorem kneighbors_repeat_deterministic_witness :
    (Coord.mk Phase.fitted (some (fit [[0,0],[1,0],[0,1],[5,5]] 2))).store
        = some (fit [[0,0],[1,0],[0,1],[5,5]] 2) ∧
    (coordKneighbors
        ((coordKneighbors (Coord.mk Phase.fitted (some (fit [[0,0],[1,0],[0,1],[5,5]] 2)))
            (fun _ => true) [[0,0]] 2).1) (fun _ => true) [[0,0]] 2).2
      = (coordKneighbors (Coord.mk Phase.fitted (some (fit [[0,0],[1,0],[0,1],[5,5]] 2)))
            (fun _ => true) [[0,0]] 2).2 :=
  ⟨rfl, kneighbors_repeat_deterministic _ _ rfl (fun _ => true) [[0,0]] 2⟩

/-- C5: Merge commutativity — for a fixed multiset of per-partition Candidate
Lists, `merge` returns the same Result Row under every permutation of the
order in which the partitions' Candidate Lists arrive. -/
theorem merge_perm_invariant (cls cls' : List (List Key)) (k : ℕ) (h : cls ~ cls') :
    merge cls k = merge cls' k := by
  rw [merge, merge]
  exact topk_congr k h.flatten

/-- C5 witness. -/
theorem merge_perm_invariant_witness :
    ([[mkKey 1 0], [mkKey 0 1]] : List (List Key)) ~ [[mkKey 0 1], [mkKey 1 0]] ∧
    merge [[mkKey 1 0], [mkKey 0 1]] 1 = merge [[mkKey 0 1], [mkKey 1 0]] 1 :=
  ⟨List.Perm.swap _ _ _, merge_perm_invariant _ _ 1 (List.Perm.swap _ _ _)⟩

/-- C6: All-or-nothing error behaviour — if any partition-holder is
unreachable during broadcast, the whole `kneighbors` call fails with
`BroadcastError`; the call returns the error and no Result Rows at all. -/
theorem broadcast_failure_all_or_nothing (reach : ℕ → Bool) (parts : List Partition)
    (queries : List Point) (k : ℕ) (h : ∃ i, i < parts.length ∧ reach i = false) :
    kneighborsChecked reach parts queries k = .error .broadcastError := by
  obtain ⟨i, hi, hri⟩ := h
  rw [kneighborsChecked, if_neg]
  intro hall
  rw [List.all_eq_true] at hall
  have hit := hall i (List.mem_range.mpr hi)
  rw [hri] at hit
  exact Bool.false_ne_true hit

/-- C6 witness. -/
theorem broadcast_failure_all_or_nothing_witness :
    (∃ i, i < (fit [[0,0],[1,0]] 2).length ∧ (fun j => decide (j ≠ 0)) i = false) ∧
    kneighborsChecked (fun j => decide (j ≠ 0)) (fit [[0,0],[1,0]] 2) [[0,0]] 1
      = .error .broadcastError :=
  ⟨⟨0, by decide⟩,
    broadcast_failure_all_or_nothing _ _ [[0,0]] 1 ⟨0, by decide⟩⟩

/-- C7: Fewer-than-k partitions are safe — a partition with fewer than `k`
rows yields a Candidate List with exactly all its rows (no failure), flagged
fewer-than-k, and any merge involving it still produces the exact top-k over
all partitions' candidates, of full length `k` whenever enough candidates
exist overall. -/
theorem search_fewer_than_k_safe (q : Point) (k : ℕ) (pt : Partition)
    (h : pt.rows.length < k) :
    (search q k pt).length = pt.rows.length ∧
    search q k pt ~ localPairs q pt ∧
    fewerThanK k pt = true ∧
    ∀ parts : List Partition, pt ∈ parts →
      resultRow parts q k = topk k ((parts.map (localPairs q)).flatten) ∧
      (k ≤ ((parts.map (localPairs q)).flatten).length →
        (resultRow parts q k).length = k) := by
  have hlp : (localPairs q pt).length = pt.rows.length := by
    rw [localPairs, List.length_map, List.enumFrom_length]
  refine ⟨?_, ?_, ?_, ?_⟩
  · rw [search, length_topk, hlp]; omega
  · rw [search, topk, List.take_of_length_le (by rw [length_sortLe, hlp]; omega)]
    exact sortLe_perm _
  · rw [fewerThanK]; exact decide_eq_true h
  · intro parts _
    refine ⟨merge_search_eq_topk parts q k, fun hk => ?_⟩
    rw [merge_search_eq_topk, length_topk, List.length_flatten]
    rw [List.length_flatten] at hk
    omega

/-- C7 witness (the spec's scenario: one local point, k = 3). -/
theorem search_fewer_than_k_safe_witness :
    (Partition.mk 0 [[5,5]]).rows.length < 3 ∧
    ((search [0,0] 3 (Partition.mk 0 [[5,5]])).length
        = (Partition.mk 0 [[5,5]]).rows.length ∧
     search [0,0] 3 (Partition.mk 0 [[5,5]]) ~ localPairs [0,0] (Partition.mk 0 [[5,5]]) ∧
     fewerThanK 3 (Partition.mk 0 [[5,5]]) = true ∧
     ∀ parts : List Partition, Partition.mk 0 [[5,5]] ∈ parts →
       resultRow parts [0,0] 3 = topk 3 ((parts.map (localPairs [0,0])).flatten) ∧
       (3 ≤ ((parts.map (localPairs [0,0])).flatten).length →
         (resultRow parts [0,0] 3).length = 3)) :=
  ⟨by decide, search_fewer_than_k_safe [0,0] 3 (Partition.mk 0 [[5,5]]) (by decide)⟩

/-- C1: Exactness of `kneighbors` — each query point's Result Row is the
global top-k over the whole fitted dataset: it has exactly `k` genuine
(distance, global-row-id) pairs, and no dataset point outside it is strictly
closer to the query than any returned pair (in particular the k-th largest). -/
theorem kneighbors_exact_topk (ds : List Point) (P k : ℕ) (hP : 1 ≤ P)
    (hk : k ≤ ds.length) (queries : List Point) (q : Point) (hq : q ∈ queries) :
    resultRow (fit ds P) q k ∈ kneighbors (fit ds P) queries k ∧
    resultRow (fit ds P) q k = topk k (globalKeys q ds) ∧
    (resultRow (fit ds P) q k).length = k ∧
    (∀ x ∈ resultRow (fit ds P) q k, ∃ hx : keyId x < ds.length,
        keyDist x = sqDist q (ds.get ⟨keyId x, hx⟩)) ∧
    ∀ n (hn : n < ds.length), (∀ x ∈ resultRow (fit ds P) q k, keyId x ≠ n) →
      ∀ x ∈ resultRow (fit ds P) q k, keyDist x ≤ sqDist q (ds.get ⟨n, hn⟩) := by
  have href : resultRow (fit ds P) q k = topk k (globalKeys q ds) := resultRow_fit ds P k hP q
  have hlen : (resultRow (fit ds P) q k).length = k := by
    rw [href, length_topk, globalKeys_length]; omega
  refine ⟨?_, href, hlen, ?_, ?_⟩
  · rw [kneighbors]
    exact List.mem_map_of_mem _ hq
  · intro x hx
    have hxG : x ∈ globalKeys q ds := by
      rw [href] at hx; exact mem_of_mem_topk hx
    obtain ⟨n, hn, hxn⟩ := List.mem_iff_getElem.mp hxG
    have hnds : n < ds.length := by rwa [globalKeys_length] at hn
    rw [globalKeys_getElem] at hxn
    subst hxn
    exact ⟨hnds, rfl⟩
  · intro n hn hout x hx
    have hpn : mkKey (sqDist q (ds.get ⟨n, hn⟩)) n ∈ globalKeys q ds := globalKeys_mem q ds n hn
    have hpn' : mkKey (sqDist q (ds.get ⟨n, hn⟩)) n ∈ sortLe (globalKeys q ds) :=
      (sortLe_perm (globalKeys q ds)).mem_iff.mpr hpn
    have hsplit : (sortLe (globalKeys q ds)).take k ++ (sortLe (globalKeys q ds)).drop k
        = sortLe (globalKeys q ds) := List.take_append_drop k _
    have hcases : mkKey (sqDist q (ds.get ⟨n, hn⟩)) n ∈
        (sortLe (globalKeys q ds)).take k ++ (sortLe (globalKeys q ds)).drop k := by
      rw [hsplit]; exact hpn'
    rcases List.mem_append.mp hcases with hin | hrest
    · exfalso
      have hmem : mkKey (sqDist q (ds.get ⟨n, hn⟩)) n ∈ resultRow (fit ds P) q k := by
        rw [href]; exact hin
      exact hout _ hmem rfl
    · have hpw : List.Pairwise (· ≤ ·)
          ((sortLe (globalKeys q ds)).take k ++ (sortLe (globalKeys q ds)).drop k) := by
        rw [hsplit]; exact sortLe_sorted _
      have hxtake : x ∈ (sortLe (globalKeys q ds)).take k := by
        rw [href] at hx; exact hx
      have hle : x ≤ mkKey (sqDist q (ds.get ⟨n, hn⟩)) n :=
        (List.pairwise_append.mp hpw).2.2 x hxtake _ hrest
      exact Prod.Lex.monotone_fst _ _ hle

/-- C1 witness (the spec's scenario: query (0,0), k = 2). -/
theorem kneighbors_exact_topk_witness :
    1 ≤ 2 ∧ 2 ≤ ([[0,0],[1,0],[0,1],[5,5]] : List Point).length ∧
    ([0,0] : Point) ∈ ([[0,0]] : List Point) ∧
    (resultRow (fit [[0,0],[1,0],[0,1],[5,5]] 2) [0,0] 2
        ∈ kneighbors (fit [[0,0],[1,0],[0,1],[5,5]] 2) [[0,0]] 2 ∧
     resultRow (fit [[0,0],[1,0],[0,1],[5,5]] 2) [0,0] 2
        = topk 2 (globalKeys [0,0] [[0,0],[1,0],[0,1],[5,5]]) ∧
     (resultRow (fit [[0,0],[1,0],[0,1],[5,5]] 2) [0,0] 2).length = 2 ∧
     (∀ x ∈ resultRow (fit [[0,0],[1,0],[0,1],[5,5]] 2) [0,0] 2,
        ∃ hx : keyId x < ([[0,0],[1,0],[0,1],[5,5]] : List Point).length,
          keyDist x = sqDist [0,0] (([[0,0],[1,0],[0,1],[5,5]] : List Point).get ⟨keyId x, hx⟩)) ∧
     ∀ n (hn : n < ([[0,0],[1,0],[0,1],[5,5]] : List Point).length),
       (∀ x ∈ resultRow (fit [[0,0],[1,0],[0,1],[5,5]] 2) [0,0] 2, keyId x ≠ n) →
       ∀ x ∈ resultRow (fit [[0,0],[1,0],[0,1],[5,5]] 2) [0,0] 2,
         keyDist x ≤ sqDist [0,0] (([[0,0],[1,0],[0,1],[5,5]] : List Point).get ⟨n, hn⟩)) :=
  ⟨by decide, by decide, by decide,
    kneighbors_exact_topk [[0,0],[1,0],[0,1],[5,5]] 2 2 (by decide) (by decide)
      [[0,0]] [0,0] (by decide)⟩

/-- C2: For every query point, the merged Result Row's distances are
monotonically non-decreasing, with ties among equal distances ordered by
ascending global-row-id (each consecutive pair strictly increases in the
(distance, global-row-id) lexicographic order). -/
theorem kneighbors_result_sorted (ds : List Point) (P k : ℕ) (hP : 1 ≤ P)
    (queries : List Point) (q : Point) (hq : q ∈ queries) :
    resultRow (fit ds P) q k ∈ kneighbors (fit ds P) queries k ∧
    List.Pairwise
      (fun a b => keyDist a < keyDist b ∨ (keyDist a = keyDist b ∧ keyId a < keyId b))
      (resultRow (fit ds P) q k) := by
  constructor
  · rw [kneighbors]
    exact List.mem_map_of_mem _ hq
  · rw [resultRow_fit ds P k hP q]
    have hsorted : List.Pairwise (· ≤ ·) (topk k (globalKeys q ds)) := topk_sorted _ _
    have hnd : (topk k (globalKeys q ds)).Nodup :=
      List.Nodup.sublist (topk_sublist_sortLe _ _)
        ((sortLe_perm (globalKeys q ds)).nodup_iff.mpr (globalKeys_nodup q ds))
    have hlt : List.Pairwise (· < ·) (topk k (globalKeys q ds)) :=
      List.Sorted.lt_of_le hsorted hnd
    refine hlt.imp ?_
    intro a b hab
    exact (Prod.Lex.lt_iff (ofLex a) (ofLex b)).mp hab

/-- C2 witness. -/
theorem kneighbors_result_sorted_witness :
    1 ≤ 2 ∧ ([0,0] : Point) ∈ ([[0,0]] : List Point) ∧
    (resultRow (fit [[0,0],[1,0],[0,1],[5,5]] 2) [0,0] 3
        ∈ kneighbors (fit [[0,0],[1,0],[0,1],[5,5]] 2) [[0,0]] 3 ∧
     List.Pairwise
       (fun a b => keyDist a < keyDist b ∨ (keyDist a = keyDist b ∧ keyId a < keyId b))
       (resultRow (fit [[0,0],[1,0],[0,1],[5,5]] 2) [0,0] 3)) :=
  ⟨by decide, by decide,
    kneighbors_result_sorted [[0,0],[1,0],[0,1],[5,5]] 2 3 (by decide) [[0,0]] [0,0]
      (by decide)⟩

/-- C8: Frame property of failed queries — on a fitted coordinator, a
`kneighbors` call (in particular a failed one) never mutates the Partition
Store and, when it fails, returns the coordinator to `Idle`; a failed `fit`
leaves the whole previous coordinator state untouched. -/
theorem failed_query_frame (c : Coord) (parts : List Partition)
    (hc : c.store = some parts) (reach : ℕ → Bool) (queries : List Point) (k : ℕ)
    (ds : List Point) (P : ℕ) :
    (coordKneighbors c reach queries k).1.store = c.store ∧
    (∀ e, (coordKneighbors c reach queries k).2 = .error e →
      (coordKneighbors c reach queries k).1.phase = Phase.idle) ∧
    (∀ e, (coordFit c ds P).2 = .error e → (coordFit c ds P).1 = c) := by
  refine ⟨?_, ?_, ?_⟩
  · cases hr : kneighborsChecked reach parts queries k with
    | ok rs => simp [coordKneighbors, hc, hr]
    | error e => simp [coordKneighbors, hc, hr]
  · intro e _
    cases hr : kneighborsChecked reach parts queries k with
    | ok rs => simp [coordKneighbors, hc, hr]
    | error e' => simp [coordKneighbors, hc, hr]
  · intro e he
    by_cases hv : validFitInput ds P
    · rw [coordFit, if_pos hv] at he
      exact absurd he (by simp)
    · rw [coordFit, if_neg hv]

/-- C8 witness (unreachable partition-holder; empty-dataset fit). -/
theorem failed_query_frame_witness :
    (Coord.mk Phase.fitted (some (fit [[0,0],[1,0]] 2))).store
        = some (fit [[0,0],[1,0]] 2) ∧
    ((coordKneighbors (Coord.mk Phase.fitted (some (fit [[0,0],[1,0]] 2)))
        (fun _ => false) [[0,0]] 1).1.store
          = (Coord.mk Phase.fitted (some (fit [[0,0],[1,0]] 2))).store ∧
     (∀ e, (coordKneighbors (Coord.mk Phase.fitted (some (fit [[0,0],[1,0]] 2)))
        (fun _ => false) [[0,0]] 1).2 = .error e →
          (coordKneighbors (Coord.mk Phase.fitted (some (fit [[0,0],[1,0]] 2)))
            (fun _ => false) [[0,0]] 1).1.phase = Phase.idle) ∧
     (∀ e, (coordFit (Coord.mk Phase.fitted (some (fit [[0,0],[1,0]] 2))) [] 1).2
          = .error e →
        (coordFit (Coord.mk Phase.fitted (some (fit [[0,0],[1,0]] 2))) [] 1).1
          = Coord.mk Phase.fitted (some (fit [[0,0],[1,0]] 2)))) :=
  ⟨rfl, failed_query_frame _ _ rfl (fun _ => false) [[0,0]] 1 [] 1⟩

/-- C9: The index-agreement check passes iff the count of differing entries
(over all `k` entries per row) between the row-wise-sorted index matrices,
divided by `n_query`, is strictly below `1e-2` (equivalently, 100 times the
count is below `n_query` — a 1% threshold); and since each row is sorted
before comparison, the check is insensitive to the ordering of neighbors
within each row of either matrix. -/
theorem index_check_threshold_and_order_insensitive
    (Isk Icuml Isk' Icuml' : List (List ℤ))
    (hsk : List.Forall₂ (· ~ ·) Isk Isk') (hcu : List.Forall₂ (· ~ ·) Icuml Icuml') :
    (indexCheckPassed Isk Icuml = true ↔
      (diffCount (sortRows Isk) (sortRows Icuml) : ℚ) / (n_query : ℚ) < 1 / 100) ∧
    (indexCheckPassed Isk Icuml = true ↔
      100 * diffCount (sortRows Isk) (sortRows Icuml) < n_query) ∧
    indexCheckPassed Isk' Icuml' = indexCheckPassed Isk Icuml := by
  have key : ∀ c : ℕ, ((c : ℚ) / (n_query : ℚ) < 1 / 100) ↔ (100 * c < n_query) := by
    intro c
    have h5 : (n_query : ℚ) = 5000 := by norm_num [n_query]
    rw [h5, div_lt_iff₀ (by norm_num : (0:ℚ) < 5000)]
    have h50 : (1:ℚ) / 100 * 5000 = ((50:ℕ) : ℚ) := by norm_num
    rw [h50, Nat.cast_lt]
    simp only [n_query]
    omega
  have hrows : ∀ a a' : List (List ℤ), List.Forall₂ (· ~ ·) a a' → sortRows a = sortRows a' := by
    intro a a' hf
    induction hf with
    | nil => rfl
    | cons hhead _ ih =>
      simp only [sortRows, List.map_cons] at ih ⊢
      rw [ih]
      congr 1
      exact sortLe_congr hhead
  refine ⟨decide_eq_true_iff, ?_, ?_⟩
  · rw [indexCheckPassed, decide_eq_true_iff]
    exact key _
  · rw [indexCheckPassed, indexCheckPassed, hrows Isk Isk' hsk, hrows Icuml Icuml' hcu]

/-- C9 witness (one query row; the cuML row arrives in a different order). -/
theorem index_check_threshold_and_order_insensitive_witness :
    List.Forall₂ (· ~ ·) ([[1,2]] : List (List ℤ)) [[1,2]] ∧
    List.Forall₂ (· ~ ·) ([[2,1]] : List (List ℤ)) [[1,2]] ∧
    ((indexCheckPassed [[1,2]] [[2,1]] = true ↔
       (diffCount (sortRows [[1,2]]) (sortRows [[2,1]]) : ℚ) / (n_query : ℚ) < 1 / 100) ∧
     (indexCheckPassed [[1,2]] [[2,1]] = true ↔
       100 * diffCount (sortRows [[1,2]]) (sortRows [[2,1]]) < n_query) ∧
     indexCheckPassed [[1,2]] [[1,2]] = indexCheckPassed [[1,2]] [[2,1]]) :=
  ⟨List.Forall₂.cons (List.Perm.refl _) List.Forall₂.nil,
   List.Forall₂.cons (List.Perm.swap _ _ _) List.Forall₂.nil,
   index_check_threshold_and_order_insensitive [[1,2]] [[2,1]] [[1,2]] [[1,2]]
     (List.Forall₂.cons (List.Perm.refl _) List.Forall₂.nil)
     (List.Forall₂.cons (List.Perm.swap _ _ _) List.Forall₂.nil)⟩

/-- C10: The sklearn baseline passes `n_neighbors = 5` explicitly while the
cuML call passes no neighbor count and falls back to the model's default; the
result matrices have the same shape exactly when that default equals 5. -/
theorem kneighbors_default_count_shape :
    skKneighborsArg = some 5 ∧ cumlKneighborsArg = none ∧
    ∀ d : ℕ, resultShape n_query (effectiveNeighbors skKneighborsArg d)
        = resultShape n_query (effectiveNeighbors cumlKneighborsArg d) ↔ d = 5 := by
  refine ⟨rfl, rfl, ?_⟩
  intro d
  constructor
  · intro h
    have := congrArg Prod.snd h
    simpa [resultShape, effectiveNeighbors, skKneighborsArg, cumlKneighborsArg,
      n_neighbors] using this.symm
  · intro h
    subst h
    rfl

/-- C10 witness. -/
theorem kneighbors_default_count_shape_witness :
    resultShape n_query (effectiveNeighbors skKneighborsArg 5)
      = resultShape n_query (effectiveNeighbors cumlKneighborsArg 5) :=
  (kneighbors_default_count_shape.2.2 5).mpr rfl

end KnnMnmg
